import Mathlib

/-
Verification of the AliaCan alias codec (aliasmanager.cpp) and backup
lifecycle manager (backupmanager.cpp) against their specification.

Modelling conventions:
- C++ `std::string` is modelled as `List Char`; the strings handled by the
  program are ASCII, and `std::isalnum` under the C locale is modelled by
  `Char.isAlpha || Char.isDigit` (false for every non-ASCII byte, as in the
  C locale).
- `std::string::npos` results are modelled with `Option Nat`.
- Filesystem, clock and subprocess effects of the backup manager are
  modelled by an explicit oracle record `BackupFS`; the mutating actions
  performed by backup rotation are reported as an `FsEvent` trace.
-/

set_option maxHeartbeats 1000000
set_option maxRecDepth 100000

namespace AliaCan

/-- Horizontal whitespace, the character set `" \t"` used by all
`find_first_not_of` / `find_last_not_of` calls in the codec. -/
def hwsB (c : Char) : Bool := c == ' ' || c == '\t'

/-- The keyword `alias` compared against by the parser. -/
def kwAlias : List Char := "alias".toList

/-- Model of `str.find_first_not_of(" \t")`: index of the first character
that is neither a space nor a tab, `none` for npos. -/
def findNotHws (s : List Char) : Option Nat := s.findIdx? (fun c => !hwsB c)

/-- Model of `str.find(ch, pos)`: absolute index of the first occurrence of
`ch` at or after `pos`, `none` for npos. -/
def findCharFrom (s : List Char) (ch : Char) (pos : Nat) : Option Nat :=
  ((s.drop pos).findIdx? (fun d => d == ch)).map (fun j => j + pos)

/-- Model of `str.substr(pos, len)` (for `pos ≤ str.size()`, which holds at
every call site embedded here). -/
def substr (s : List Char) (pos len : Nat) : List Char := (s.drop pos).take len

/-- Model of `str.find_last_not_of(" \t")`: index of the last character that
is neither a space nor a tab. -/
def findLastNotHws (s : List Char) : Option Nat :=
  (s.reverse.findIdx? (fun c => !hwsB c)).map (fun j => s.length - 1 - j)

/-- `ShellDetector::Shell` (shelldetector.hpp). -/
inductive Shell
  | BASH
  | ZSH
  | FISH
  | UNKNOWN
deriving DecidableEq

/-- The `Alias` record (aliasmanager.hpp).  Only `name` and `command` are
modelled: the C++ `operator==` compares exactly these two fields, and the
codec neither reads nor writes the remaining fields. -/
structure Alias where
  name : List Char
  command : List Char
deriving DecidableEq

/-- `std::isalnum` under the C locale, on the ASCII range. -/
def isAlnumC (c : Char) : Bool := c.isAlpha || c.isDigit

/-- `AliasManager::validateAliasName` (aliasmanager.cpp lines 32-49). -/
def validateAliasName (name : List Char) : Bool :=
  if name.isEmpty || decide (name.length > 255) then false
  else
    match name with
    | [] => false
    | c0 :: rest =>
      if !(isAlnumC c0 || c0 == '_') then false
      else rest.all (fun c => isAlnumC c || c == '_' || c == '-')

/-- `AliasManager::validateCommand` (aliasmanager.cpp lines 58-66). -/
def validateCommand (command : List Char) : Bool :=
  if command.isEmpty then false
  else if decide (command.length > 2048) then false
  else true

/-- The backquote character, written by code point. -/
def backquoteC : Char := Char.ofNat 96

/-- The character set escaped by `AliasManager::escapeCommand`. -/
def isShellSpecial (c : Char) : Bool :=
  c == '\'' || c == '"' || c == '\\' || c == '$' ||
  c == backquoteC || c == '!' || c == '*' || c == '?'

/-- `AliasManager::escapeCommand` (aliasmanager.cpp lines 230-244): prefix
every special character with a backslash. -/
def escapeCommand : List Char → List Char
  | [] => []
  | c :: rest => (if isShellSpecial c then ['\\', c] else [c]) ++ escapeCommand rest

/-- Loop of `AliasManager::unescapeString`, with the `prevBackslash` flag as
first argument; the empty case renders the final trailing-backslash fixup. -/
def unescapeAux (b : Bool) : List Char → List Char
  | [] => if b then ['\\'] else []
  | c :: rest =>
    if b then c :: unescapeAux false rest
    else if c == '\\' then unescapeAux true rest
    else c :: unescapeAux false rest

/-- `AliasManager::unescapeString` (aliasmanager.cpp lines 250-276). -/
def unescapeString (s : List Char) : List Char := unescapeAux false s

/-- `AliasManager::formatAlias` (aliasmanager.cpp lines 75-107). -/
def formatAlias (shell : Shell) (a : Alias) : List Char :=
  if !validateAliasName a.name || !validateCommand a.command then []
  else
    match shell with
    | Shell.BASH | Shell.ZSH =>
      if a.command.contains '\'' then
        "alias ".toList ++ a.name ++ '=' :: '"' :: (escapeCommand a.command ++ ['"'])
      else
        "alias ".toList ++ a.name ++ '=' :: '\'' :: (escapeCommand a.command ++ ['\''])
    | Shell.FISH =>
      "alias ".toList ++ a.name ++ ' ' :: '\'' :: (escapeCommand a.command ++ ['\''])
    | Shell.UNKNOWN =>
      "alias ".toList ++ a.name ++ '=' :: '\'' :: (escapeCommand a.command ++ ['\''])

/-- `AliasManager::parseAliasLine` (aliasmanager.cpp lines 117-179).  The
default-constructed `Alias` returned on the reject paths is `⟨[], []⟩`.
In the C++ code, whenever `nameStart` is found `nameEnd` is found as well
(same character set); the model uses `getD 0` for that never-taken case. -/
def parseAliasLine (line : List Char) : Alias :=
  match findNotHws line with
  | none => ⟨[], []⟩
  | some start =>
    if substr line start 5 ≠ kwAlias then ⟨[], []⟩
    else
      match findCharFrom line '=' (start + 5) with
      | none => ⟨[], []⟩
      | some eqPos =>
        let namePart := substr line (start + 5) (eqPos - start - 5)
        match findNotHws namePart with
        | none => ⟨[], []⟩
        | some nameStart =>
          let nameEnd := (findLastNotHws namePart).getD 0
          let name := substr namePart nameStart (nameEnd - nameStart + 1)
          let commandPart := line.drop (eqPos + 1)
          match findNotHws commandPart with
          | none => ⟨name, []⟩
          | some cmdStart =>
            let c0 := commandPart.getD cmdStart ' '
            let rawCmd :=
              if c0 == '\'' || c0 == '"' then
                match findCharFrom commandPart c0 (cmdStart + 1) with
                | some endQuote => substr commandPart (cmdStart + 1) (endQuote - cmdStart - 1)
                | none => commandPart.drop (cmdStart + 1)
              else
                let beforeComment :=
                  match findCharFrom commandPart '#' cmdStart with
                  | some commentPos => substr commandPart cmdStart (commentPos - cmdStart)
                  | none => commandPart.drop cmdStart
                match findLastNotHws beforeComment with
                | some e => beforeComment.take (e + 1)
                | none => beforeComment
            ⟨name, unescapeString rawCmd⟩

/-- `AliasManager::isAliasLine` (aliasmanager.cpp lines 186-193). -/
def isAliasLine (line : List Char) : Bool :=
  match findNotHws line with
  | none => false
  | some start => substr line start 5 == kwAlias

/-
Spec-side definitions, used to state refinement claims.  Each is written
from the words of the specification, to be compared with the definitions
above taken from the code.
-/

/-- Spec-side: trimming surrounding horizontal whitespace. -/
def specTrim (s : List Char) : List Char :=
  ((s.dropWhile hwsB).reverse.dropWhile hwsB).reverse

/-- Spec-side: the valid-name predicate as the claim states it: length 1-255,
first character a letter, digit, or underscore, remaining characters
letters, digits, underscore, or hyphen. -/
def NameSpec (name : List Char) : Prop :=
  1 ≤ name.length ∧ name.length ≤ 255 ∧
  match name with
  | [] => False
  | c :: rest =>
    (c.isAlpha = true ∨ c.isDigit = true ∨ c = '_') ∧
    ∀ d ∈ rest, d.isAlpha = true ∨ d.isDigit = true ∨ d = '_' ∨ d = '-'

/-- Spec-side: a line is an alias line iff after skipping leading horizontal
whitespace the next five characters equal `alias` exactly. -/
def AliasLineSpec (line : List Char) : Prop :=
  (line.dropWhile hwsB).take 5 = kwAlias

/-- Spec-side: the claimed quoting rule, for every dialect: outer double
quotes when the command contains a single quote, outer single quotes
otherwise; POSIX dialects separate name and command with `=`, FISH with a
space. -/
def specQuotedFormat (shell : Shell) (a : Alias) : List Char :=
  let q : Char := if a.command.contains '\'' then '"' else '\''
  let sep : Char :=
    match shell with
    | Shell.FISH => ' '
    | _ => '='
  "alias ".toList ++ a.name ++ sep :: q :: (escapeCommand a.command ++ [q])

/-
Backup lifecycle manager model (backupmanager.cpp).
-/

/-- A broken-down local time, the data `std::localtime` yields to
`BackupManager::generateTimestamp`. -/
structure Timestamp where
  year : Nat
  month : Nat
  day : Nat
  hour : Nat
  minute : Nat
  second : Nat

/-- The decimal digit character for `n < 10`. -/
def digitChar (n : Nat) : Char := Char.ofNat (48 + n)

/-- Decimal digits of a natural number, fuel-driven so that it reduces in
the kernel; `natDigits` supplies sufficient fuel. -/
def natDigitsAux : Nat → Nat → List Char
  | 0, _ => []
  | fuel + 1, n =>
    if n < 10 then [digitChar n]
    else natDigitsAux fuel (n / 10) ++ [digitChar (n % 10)]

/-- Decimal notation of a natural number (`%Y` of strftime). -/
def natDigits (n : Nat) : List Char := natDigitsAux (n + 1) n

/-- Two-digit zero-padded decimal (`%m %d %H %M %S` of strftime). -/
def pad2 (n : Nat) : List Char := if n < 10 then '0' :: natDigits n else natDigits n

/-- `BackupManager::generateTimestamp` (backupmanager.cpp lines 401-410):
`put_time` with format `%Y%m%d_%H%M%S`. -/
def generateTimestamp (t : Timestamp) : List Char :=
  natDigits t.year ++ pad2 t.month ++ pad2 t.day ++
    '_' :: (pad2 t.hour ++ pad2 t.minute ++ pad2 t.second)

/-- Spec-side: the shape `YYYYMMDD_HHMMSS` — eight digits, an underscore,
six digits. -/
def TimestampShape (l : List Char) : Prop :=
  ∃ a b, l = a ++ '_' :: b ∧ a.length = 8 ∧ b.length = 6 ∧
    (∀ c ∈ a, c.isDigit = true) ∧ (∀ c ∈ b, c.isDigit = true)

/-- `fs::path::parent_path` for the POSIX-style paths handled by the
program: everything before the final `/` (the root stays `/`). -/
def parentPath (p : List Char) : List Char :=
  match p.reverse.findIdx? (fun c => c == '/') with
  | none => []
  | some j =>
    let r := p.take (p.length - 1 - j)
    if r.isEmpty && p.head? == some '/' then ['/'] else r

/-- `fs::path::filename` for POSIX-style paths: everything after the final
`/`. -/
def baseName (p : List Char) : List Char :=
  match p.reverse.findIdx? (fun c => c == '/') with
  | none => p
  | some j => p.drop (p.length - j)

/-- `fs::path(d) / f` for a relative filename `f`. -/
def pathJoin (d f : List Char) : List Char :=
  if d.isEmpty then f
  else if d.getLast? == some '/' then d ++ f
  else d ++ '/' :: f

/-- Model of `filename.find(pattern) != npos`: contiguous substring test. -/
def containsSub (pat : List Char) : List Char → Bool
  | [] => pat.isEmpty
  | c :: rest => (c :: rest).take pat.length == pat || containsSub pat rest

/-- Oracle record for the filesystem, environment, clock and subprocess
calls made by `BackupManager`.  Functions describe the outcome each call
would have; `mtime p = none` models `fs::last_write_time` throwing. -/
structure BackupFS where
  home : Option (List Char)
  fileExists : List Char → Bool
  mkdirOk : Bool
  mkdirErr : List Char
  dirEntries : List (List Char)
  mtime : List Char → Option Nat
  removeOk : List Char → Bool
  xzOk : List Char → Bool
  xzdOk : List Char → Bool
  copyOk : List Char → List Char → Bool
  copyErr : List Char
  now : Timestamp

/-- `BackupManager::getBackupDirectory` (backupmanager.cpp lines 312-340):
prefer `$HOME/.shellbackup`, creating it on first use; fall back to the
tracked file's parent directory when `HOME` is unset or creation fails.
The second component is the error message recorded on a creation failure. -/
def getBackupDirectoryM (env : BackupFS) (orig : List Char) :
    List Char × Option (List Char) :=
  match env.home with
  | none => (parentPath orig, none)
  | some h =>
    let dir := pathJoin h (".shellbackup".toList)
    if env.fileExists dir then (dir, none)
    else if env.mkdirOk then (dir, none)
    else (parentPath orig,
      some ("Failed to create backup directory: ".toList ++ env.mkdirErr))

/-- `BackupManager::getBackupBaseName` (backupmanager.cpp lines 416-418). -/
def getBackupBaseName (orig : List Char) : List Char :=
  baseName orig ++ ".bak".toList

/-- `BackupManager::listBackups` (backupmanager.cpp lines 281-305): the
regular files of the backup directory whose name contains
`<basename>.bak`, as full paths.  `env.dirEntries` is the list of names
the directory scan yields. -/
def listBackups (env : BackupFS) (orig : List Char) : List (List Char) :=
  let pat := getBackupBaseName orig
  let dir := (getBackupDirectoryM env orig).1
  (env.dirEntries.filter (fun f => containsSub pat f)).map (fun f => pathJoin dir f)

/-- Model of `path.substr(path.size() - 3) == ".xz"`.  The C++ call throws
for paths shorter than three characters; theorems stay inside the agreeing
region by requiring backup paths of length at least three. -/
def endsWithXz (p : List Char) : Bool := p.drop (p.length - 3) == ".xz".toList

/-- One observable filesystem action of backup rotation. -/
inductive FsEvent
  | removed (p : List Char)
  | removeFailed (p : List Char)
  | compressed (p : List Char)
  | compressFailed (p : List Char)
deriving DecidableEq

/-- The path an event is about. -/
def FsEvent.path : FsEvent → List Char
  | removed p => p
  | removeFailed p => p
  | compressed p => p
  | compressFailed p => p

/-- Newest-first order on (path, modification time) pairs: the model of the
comparator `a.second > b.second` passed to `std::sort`. -/
def newestFirst (a b : List Char × Nat) : Prop := b.2 ≤ a.2

instance : DecidableRel newestFirst :=
  fun a b => inferInstanceAs (Decidable (b.2 ≤ a.2))

instance : IsTotal (List Char × Nat) newestFirst :=
  ⟨fun a b => Nat.le_total b.2 a.2⟩

instance : IsTrans (List Char × Nat) newestFirst :=
  ⟨fun _ _ _ hab hbc => Nat.le_trans hbc hab⟩

/-- Model of `std::sort` with the newest-first comparator.  `std::sort` is
not stable and leaves the order of equal keys unspecified; this model fixes
one order, and the theorems below only invoke it on strictly sorted or
arbitrary inputs where that choice is not observable. -/
def sortByTimeDesc (l : List (List Char × Nat)) : List (List Char × Nat) :=
  List.insertionSort newestFirst l

/-- The index loop of `BackupManager::cleanupAndCompressOldBackups`
(backupmanager.cpp lines 213-233): position `≥ maxBackups` is deleted
(failures skipped, not counted), position 10 to `maxBackups - 1` is
compressed with `xz -9e` unless the name already ends in `.xz`, earlier
positions are untouched.  Returns the delete count and the event trace. -/
def rotateLoop (env : BackupFS) (maxB : Nat) : Nat → List (List Char) → Nat × List FsEvent
  | _, [] => (0, [])
  | i, p :: rest =>
    let r := rotateLoop env maxB (i + 1) rest
    if maxB ≤ i then
      if env.removeOk p then (r.1 + 1, FsEvent.removed p :: r.2)
      else (r.1, FsEvent.removeFailed p :: r.2)
    else if 10 ≤ i ∧ endsWithXz p = false then
      if env.xzOk p then (r.1, FsEvent.compressed p :: r.2)
      else (r.1, FsEvent.compressFailed p :: r.2)
    else (r.1, r.2)

/-- `BackupManager::cleanupAndCompressOldBackups` (backupmanager.cpp lines
187-236): non-positive caps become 20; backups are paired with their
modification times (unreadable ones skipped), sorted newest first, and fed
through the rotation loop. -/
def cleanupAndCompressOldBackups (env : BackupFS) (orig : List Char)
    (maxBackups : Int) : Nat × List FsEvent :=
  let maxB : Nat := if maxBackups ≤ 0 then 20 else maxBackups.toNat
  let backups := listBackups env orig
  let withTime := backups.filterMap (fun p => (env.mtime p).map (fun t => (p, t)))
  rotateLoop env maxB 0 ((sortByTimeDesc withTime).map Prod.fst)

/-- The last-error slot after the rotation loop: each failed compression
overwrites it (backupmanager.cpp line 230). -/
def rotationLastError (le : List Char) (evs : List FsEvent) : List Char :=
  evs.foldl (fun acc e =>
    match e with
    | FsEvent.compressFailed p => "Failed to compress backup: ".toList ++ p
    | _ => acc) le

/-- The destination path `createBackup` copies to: the resolved backup
directory joined with `<basename>.bak<timestamp>`. -/
def backupTargetPath (env : BackupFS) (orig : List Char) : List Char :=
  pathJoin (getBackupDirectoryM env orig).1
    (baseName orig ++ ".bak".toList ++ generateTimestamp env.now)

/-- Outcome of `createBackup`: returned string, last-error slot afterwards
(given its prior value), the cap passed to rotation when rotation ran, the
rotation event trace, and whether the copy happened. -/
structure CreateBackupOut where
  result : List Char
  lastError : List Char
  rotateCap : Option Int
  rotateEvents : List FsEvent
  copied : Bool
deriving DecidableEq

/-- `BackupManager::createBackup` (backupmanager.cpp lines 151-178). -/
def createBackup (env : BackupFS) (orig : List Char) (le0 : List Char) :
    CreateBackupOut :=
  if !env.fileExists orig then
    ⟨[], "Original file does not exist: ".toList ++ orig, none, [], false⟩
  else
    let dres := getBackupDirectoryM env orig
    let le1 := dres.2.getD le0
    let backupPath := pathJoin dres.1
      (baseName orig ++ ".bak".toList ++ generateTimestamp env.now)
    if env.copyOk orig backupPath then
      let rot := cleanupAndCompressOldBackups env orig 20
      ⟨backupPath, rotationLastError le1 rot.2, some 20, rot.2, true⟩
    else
      ⟨[], "Failed to create backup: ".toList ++ env.copyErr, none, [], false⟩

/-- `BackupManager::getLastBackupPath` (backupmanager.cpp lines 346-374). -/
def getLastBackupPath (env : BackupFS) (orig : List Char) : List Char :=
  let backups := listBackups env orig
  if backups.isEmpty then []
  else
    let withTime := backups.filterMap (fun p => (env.mtime p).map (fun t => (p, t)))
    if withTime.isEmpty then []
    else
      match sortByTimeDesc withTime with
      | [] => []
      | x :: _ => x.1

/-- `BackupManager::restoreFromBackup` (backupmanager.cpp lines 242-275).
Returns the success flag and the last-error slot afterwards, given its
prior value `le0`. -/
def restoreFromBackup (env : BackupFS) (orig : List Char) (le0 : List Char)
    (bp : List Char) : Bool × List Char :=
  if endsWithXz bp then
    let actual := bp.take (bp.length - 3)
    if !env.xzdOk bp then (false, "Failed to decompress backup: ".toList ++ bp)
    else if !env.fileExists actual then
      (false, "Backup file does not exist: ".toList ++ actual)
    else if env.copyOk actual orig then (true, le0)
    else (false, "Failed to restore from backup: ".toList ++ env.copyErr)
  else
    if !env.fileExists bp then
      (false, "Backup file does not exist: ".toList ++ bp)
    else if env.copyOk bp orig then (true, le0)
    else (false, "Failed to restore from backup: ".toList ++ env.copyErr)

/-- The `"No backup found"` message of `restoreFromLastBackup`. -/
def noBackupMsg : List Char := "No backup found".toList

/-- `BackupManager::restoreFromLastBackup` (backupmanager.cpp lines
380-387). -/
def restoreFromLastBackup (env : BackupFS) (orig : List Char)
    (le0 : List Char) : Bool × List Char :=
  let lastBackup := getLastBackupPath env orig
  if lastBackup.isEmpty then (false, noBackupMsg)
  else restoreFromBackup env orig le0 lastBackup

/-- The C2 rotation invariant, for a newest-first backup list `ps` and the
rotation output `out` (delete count, event trace): positions 0-9 are
untouched, positions 10-19 get the compression treatment (already-`.xz`
entries untouched, the rest compressed when `xz` succeeds, never deleted),
positions 20-24 get the deletion treatment (failures skipped), and the
returned count is the number of successful deletions, which equals 5 minus
the number of failed ones. -/
def RotationClaim (env : BackupFS) (ps : List (List Char))
    (out : Nat × List FsEvent) : Prop :=
  (∀ p ∈ ps.take 10, ∀ ev ∈ out.2, FsEvent.path ev ≠ p) ∧
  (∀ p ∈ (ps.drop 10).take 10,
    (endsWithXz p = true → ∀ ev ∈ out.2, FsEvent.path ev ≠ p) ∧
    (endsWithXz p = false → env.xzOk p = true → FsEvent.compressed p ∈ out.2) ∧
    (endsWithXz p = false → env.xzOk p = false → FsEvent.compressFailed p ∈ out.2) ∧
    FsEvent.removed p ∉ out.2) ∧
  (∀ p ∈ ps.drop 20,
    (env.removeOk p = true → FsEvent.removed p ∈ out.2) ∧
    (env.removeOk p = false →
      FsEvent.removeFailed p ∈ out.2 ∧ FsEvent.removed p ∉ out.2)) ∧
  out.1 = ((ps.drop 20).filter (fun q => env.removeOk q)).length ∧
  out.1 = 5 - ((ps.drop 20).filter (fun q => !env.removeOk q)).length

/-- The C7 claim about `createBackup`: empty result plus recorded reason
when the tracked file is missing or the copy fails; on success the returned
path is `<resolved backup dir>/<basename>.bak<timestamp>`, the copy
happened, and rotation ran with cap 20; and the generated timestamp has the
`YYYYMMDD_HHMMSS` shape for any in-range clock reading. -/
def CreateBackupClaim (env : BackupFS) (orig le0 : List Char) : Prop :=
  (env.fileExists orig = false →
    (createBackup env orig le0).result = [] ∧
    (createBackup env orig le0).lastError =
      "Original file does not exist: ".toList ++ orig ∧
    (createBackup env orig le0).rotateCap = none) ∧
  (env.fileExists orig = true →
    env.copyOk orig (backupTargetPath env orig) = false →
    (createBackup env orig le0).result = [] ∧
    (createBackup env orig le0).lastError =
      "Failed to create backup: ".toList ++ env.copyErr ∧
    (createBackup env orig le0).rotateCap = none) ∧
  (env.fileExists orig = true →
    env.copyOk orig (backupTargetPath env orig) = true →
    (createBackup env orig le0).result = backupTargetPath env orig ∧
    (createBackup env orig le0).result =
      pathJoin (getBackupDirectoryM env orig).1
        (baseName orig ++ ".bak".toList ++ generateTimestamp env.now) ∧
    (createBackup env orig le0).copied = true ∧
    (createBackup env orig le0).rotateCap = some 20 ∧
    (createBackup env orig le0).rotateEvents =
      (cleanupAndCompressOldBackups env orig 20).2) ∧
  (1000 ≤ env.now.year → env.now.year < 10000 → env.now.month < 100 →
    env.now.day < 100 → env.now.hour < 100 → env.now.minute < 100 →
    env.now.second < 100 → TimestampShape (generateTimestamp env.now))

/-- The amended C8 claim: `restoreFromLastBackup` fails with the
`"No backup found"` error exactly when no scanned backup entry has a
readable modification time; otherwise it delegates to `restoreFromBackup`
on an entry with maximal modification time. -/
def RestoreDelegationClaim (env : BackupFS) (orig le0 : List Char) : Prop :=
  ((restoreFromLastBackup env orig le0 = (false, noBackupMsg)) ↔
    (listBackups env orig).filterMap
      (fun p => (env.mtime p).map (fun t => (p, t))) = []) ∧
  ((listBackups env orig).filterMap
      (fun p => (env.mtime p).map (fun t => (p, t))) ≠ [] →
    ∃ x ∈ (listBackups env orig).filterMap
        (fun p => (env.mtime p).map (fun t => (p, t))),
      (∀ y ∈ (listBackups env orig).filterMap
          (fun p => (env.mtime p).map (fun t => (p, t))), y.2 ≤ x.2) ∧
      restoreFromLastBackup env orig le0 = restoreFromBackup env orig le0 x.1)

/-- Concrete oracle used by the backup-manager witnesses: the tracked file
`/h/f` exists, `HOME` is `/h`, the backup directory holds 25 backups of
strictly increasing name length (hence strictly decreasing modelled
modification times), and every filesystem or subprocess call succeeds. -/
def envW : BackupFS where
  home := some ("/h".toList)
  fileExists := fun p => p == "/h/.shellbackup".toList || p == "/h/f".toList
  mkdirOk := true
  mkdirErr := []
  dirEntries := (List.range 25).map (fun k => "f.bak".toList ++ List.replicate (k + 1) '1')
  mtime := fun p => some (1000 - p.length)
  removeOk := fun _ => true
  xzOk := fun _ => true
  xzdOk := fun _ => true
  copyOk := fun _ _ => true
  copyErr := []
  now := ⟨2024, 1, 15, 14, 30, 25⟩

/-- The backup list `envW` yields for `/h/f`, newest first. -/
def psW : List (List Char) :=
  (List.range 25).map
    (fun k => "/h/.shellbackup/f.bak".toList ++ List.replicate (k + 1) '1')

/-- Concrete oracle for the C8 counterexample: one backup entry exists but
its modification-time lookup throws, so the entry is skipped. -/
def envC8x : BackupFS where
  home := some ("/h".toList)
  fileExists := fun p => p == "/h/.shellbackup".toList || p == "/h/f".toList
  mkdirOk := true
  mkdirErr := []
  dirEntries := ["f.bak1".toList]
  mtime := fun _ => none
  removeOk := fun _ => true
  xzOk := fun _ => true
  xzdOk := fun _ => true
  copyOk := fun _ _ => true
  copyErr := []
  now := ⟨2024, 1, 15, 14, 30, 25⟩

/-
Helper lemmas about the string primitives.
-/

theorem escapeCommand_mem {c : Char} (s : List Char)
    (h : c ∈ escapeCommand s) : c = '\\' ∨ c ∈ s := by
  induction s with
  | nil => cases h
  | cons d rest ih =>
    rw [escapeCommand] at h
    rcases List.mem_append.1 h with h1 | h1
    · by_cases hd : isShellSpecial d
      · rw [if_pos hd] at h1
        simp only [List.mem_cons, List.not_mem_nil, or_false] at h1
        rcases h1 with rfl | rfl
        · exact Or.inl rfl
        · exact Or.inr (List.mem_cons_self _ _)
      · rw [if_neg hd] at h1
        simp only [List.mem_cons, List.not_mem_nil, or_false] at h1
        subst h1
        exact Or.inr (List.mem_cons_self _ _)
    · rcases ih h1 with h2 | h2
      · exact Or.inl h2
      · exact Or.inr (List.mem_cons_of_mem _ h2)

theorem unescape_of_escape : ∀ s : List Char,
    unescapeAux false (escapeCommand s) = s := by
  intro s
  induction s with
  | nil => rfl
  | cons c rest ih =>
    rw [escapeCommand]
    by_cases hc : isShellSpecial c
    · rw [if_pos hc]
      show unescapeAux false ('\\' :: (c :: escapeCommand rest)) = c :: rest
      simp [unescapeAux, ih]
    · rw [if_neg hc]
      show unescapeAux false (c :: escapeCommand rest) = c :: rest
      have hne : (c == '\\') = false := by
        rcases h : c == '\\' with _ | _
        · rfl
        · exfalso
          apply hc
          rw [isShellSpecial, h]
          simp
      simp [unescapeAux, hne, ih]

theorem findIdx?_acc {α : Type} (p : α → Bool) (l : List α) (i : Nat) :
    List.findIdx? p l i = (List.findIdx? p l).map (fun j => j + i) := by
  induction l generalizing i with
  | nil => rfl
  | cons x xs ih =>
    rw [List.findIdx?_cons, List.findIdx?_cons]
    by_cases h : p x
    · simp [h]
    · simp only [h, Bool.false_eq_true, if_false]
      rw [ih, ih 1]
      cases List.findIdx? p xs with
      | none => rfl
      | some j => simp; omega

theorem findIdx?_append_none {α : Type} {p : α → Bool} {l1 : List α}
    (h : ∀ c ∈ l1, p c = false) (l2 : List α) :
    List.findIdx? p (l1 ++ l2) =
      (List.findIdx? p l2).map (fun j => j + l1.length) := by
  induction l1 with
  | nil => simp
  | cons x xs ih =>
    have hx : p x = false := h x (List.mem_cons_self _ _)
    rw [List.cons_append, List.findIdx?_cons]
    simp only [hx, Bool.false_eq_true, if_false]
    rw [findIdx?_acc, ih (fun c hc => h c (List.mem_cons_of_mem _ hc))]
    cases List.findIdx? p l2 with
    | none => rfl
    | some j => simp; omega

theorem findIdx?_cons_true {α : Type} {p : α → Bool} {c : α}
    (h : p c = true) (l : List α) : List.findIdx? p (c :: l) = some 0 := by
  rw [List.findIdx?_cons, if_pos h]

theorem findNotHws_none {s : List Char} (h : ∀ c ∈ s, hwsB c = true) :
    findNotHws s = none :=
  List.findIdx?_eq_none_iff.2 (fun c hc => by simp [h c hc])

theorem findNotHws_append_ws {l1 : List Char}
    (h : ∀ c ∈ l1, hwsB c = true) (l2 : List Char) :
    findNotHws (l1 ++ l2) = (findNotHws l2).map (fun j => j + l1.length) :=
  findIdx?_append_none (fun c hc => by simp [h c hc]) l2

theorem findNotHws_cons_not {c : Char} (h : hwsB c = false) (l : List Char) :
    findNotHws (c :: l) = some 0 :=
  findIdx?_cons_true (by simp [h]) l

theorem takeWhile_all {α : Type} {p : α → Bool} (l : List α) :
    ∀ c ∈ l.takeWhile p, p c = true := by
  induction l with
  | nil => intro c hc; cases hc
  | cons x xs ih =>
    intro c hc
    rw [List.takeWhile_cons] at hc
    by_cases hx : p x
    · rw [hx] at hc
      simp only [if_true] at hc
      rcases List.mem_cons.1 hc with rfl | hc
      · exact hx
      · exact ih c hc
    · rw [Bool.eq_false_iff.2 hx] at hc
      simp only [Bool.false_eq_true, if_false] at hc
      cases hc

theorem dropWhile_head_false {α : Type} {p : α → Bool} (l : List α) {c : α}
    {r : List α} (h : l.dropWhile p = c :: r) : p c = false := by
  induction l with
  | nil => cases h
  | cons x xs ih =>
    rw [List.dropWhile_cons] at h
    by_cases hx : p x
    · rw [if_pos hx] at h
      exact ih h
    · rw [if_neg hx] at h
      cases h
      exact Bool.eq_false_iff.2 hx

theorem specTrim_of_all_ws {s : List Char} (h : ∀ c ∈ s, hwsB c = true) :
    specTrim s = [] := by
  rw [specTrim, List.dropWhile_eq_nil_iff.2 h]
  rfl

/-- When a `find_first_not_of(" \t")` call succeeds, it returns the length
of the whitespace prefix. -/
theorem findNotHws_of_dropWhile_ne {s : List Char}
    (h : s.dropWhile hwsB ≠ []) :
    findNotHws s = some ((s.takeWhile hwsB).length) := by
  obtain ⟨c, r, hcr⟩ := List.exists_cons_of_ne_nil h
  have hc : hwsB c = false := dropWhile_head_false _ hcr
  have h2 := @findNotHws_append_ws (s.takeWhile hwsB)
    (fun x hx => takeWhile_all _ x hx) (s.dropWhile hwsB)
  rw [List.takeWhile_append_dropWhile] at h2
  rw [h2, hcr, findNotHws_cons_not hc]
  simp

/-- When a first non-whitespace character exists, the substring the parser
extracts between `find_first_not_of` and `find_last_not_of` is exactly the
whitespace-trimmed input. -/
theorem trim_extract {s : List Char} {i : Nat} (h : findNotHws s = some i) :
    ∃ e, findLastNotHws s = some e ∧ substr s i (e - i + 1) = specTrim s := by
  have hs : s.takeWhile hwsB ++ s.dropWhile hwsB = s :=
    List.takeWhile_append_dropWhile hwsB s
  have ht : s.dropWhile hwsB ≠ [] := by
    intro h0
    have hall : ∀ c ∈ s, hwsB c = true := List.dropWhile_eq_nil_iff.1 h0
    rw [findNotHws_none hall] at h
    cases h
  obtain ⟨c, r, hcr⟩ := List.exists_cons_of_ne_nil ht
  have hc : hwsB c = false := dropWhile_head_false _ hcr
  have hi : findNotHws s = some ((s.takeWhile hwsB).length) :=
    findNotHws_of_dropWhile_ne ht
  rw [hi] at h
  have hieq : i = (s.takeWhile hwsB).length := (Option.some.inj h).symm
  set t := s.dropWhile hwsB with hts
  have htr : t.reverse.takeWhile hwsB ++ t.reverse.dropWhile hwsB = t.reverse :=
    List.takeWhile_append_dropWhile hwsB t.reverse
  have hu : t.reverse.dropWhile hwsB ≠ [] := by
    intro h0
    have hall : ∀ d ∈ t.reverse, hwsB d = true := List.dropWhile_eq_nil_iff.1 h0
    have hct : c ∈ t.reverse := by
      rw [List.mem_reverse, hcr]
      exact List.mem_cons_self _ _
    rw [hall c hct] at hc
    cases hc
  obtain ⟨d, u', hdu⟩ := List.exists_cons_of_ne_nil hu
  have hd : hwsB d = false := dropWhile_head_false _ hdu
  set v := t.reverse.takeWhile hwsB with hvs
  set u := t.reverse.dropWhile hwsB with hus
  have hrev : s.reverse = v ++ (u ++ (s.takeWhile hwsB).reverse) := by
    conv_lhs => rw [← hs]
    rw [List.reverse_append, ← htr, List.append_assoc]
  have hfl : findLastNotHws s = some (s.length - 1 - v.length) := by
    rw [findLastNotHws, hrev,
      findIdx?_append_none (fun x hx => by simp [takeWhile_all _ x hx]) _,
      hdu, List.cons_append, findIdx?_cons_true (by simp [hd]) _]
    simp
  refine ⟨s.length - 1 - v.length, hfl, ?_⟩
  have hlt : t = u.reverse ++ v.reverse := by
    have h1 := congrArg List.reverse htr
    rw [List.reverse_append, List.reverse_reverse] at h1
    exact h1.symm
  have hulen : 1 ≤ u.length := by rw [hdu]; simp
  have hlen : s.length = (s.takeWhile hwsB).length + (u.length + v.length) := by
    conv_lhs => rw [← hs]
    rw [List.length_append, hlt, List.length_append, List.length_reverse,
      List.length_reverse]
  have harith : s.length - 1 - v.length - i + 1 = u.length := by
    rw [hieq]; omega
  rw [substr, harith, hieq]
  have hdropped : s.drop (s.takeWhile hwsB).length = t := by
    have h1 := List.drop_left (s.takeWhile hwsB) t
    rwa [hs] at h1
  rw [hdropped, hlt, ← List.length_reverse u, List.take_left]
  rw [specTrim, ← hts, ← hus]

/-
Claim theorems.
-/

/-- C9: unescaping is a left inverse of command escaping: for every string
`s`, `unescapeString (escapeCommand s) = s`. -/
theorem c9_unescape_escape (s : List Char) :
    unescapeString (escapeCommand s) = s :=
  unescape_of_escape s

/-- C4: `validateAliasName` accepts exactly the names of length 1 to 255
whose first character is a letter, digit, or underscore and whose remaining
characters are letters, digits, underscore, or hyphen; with the boundary
examples of the claim. -/
theorem c4_validateAliasName_spec :
    (∀ name : List Char, validateAliasName name = true ↔ NameSpec name) ∧
    validateAliasName (List.replicate 255 'a') = true ∧
    validateAliasName (List.replicate 256 'a') = false ∧
    validateAliasName [] = false ∧
    validateAliasName ("_ok-1".toList) = true ∧
    validateAliasName ("bad name".toList) = false := by
  refine ⟨?_, by decide, by decide, by decide, by decide, by decide⟩
  intro name
  cases name with
  | nil => simp [validateAliasName, NameSpec]
  | cons c0 rest =>
    by_cases hlen : (c0 :: rest).length > 255
    · have hcond : ((c0 :: rest).isEmpty || decide ((c0 :: rest).length > 255)) = true := by
        simp only [List.isEmpty_cons, Bool.false_or, decide_eq_true_eq]
        exact hlen
      rw [validateAliasName, if_pos hcond]
      simp only [NameSpec]
      constructor
      · intro h; cases h
      · rintro ⟨-, h2, -⟩
        exact absurd h2 (by omega)
    · have hcond : ((c0 :: rest).isEmpty || decide ((c0 :: rest).length > 255)) = false := by
        simp only [List.isEmpty_cons, Bool.false_or]
        exact decide_eq_false hlen
      rw [validateAliasName, if_neg (by rw [hcond]; exact Bool.false_ne_true)]
      simp only [NameSpec]
      constructor
      · intro h
        by_cases h0 : (isAlnumC c0 || c0 == '_') = true
        · rw [if_neg (by simp [h0])] at h
          refine ⟨by simp, by omega, ?_, ?_⟩
          · simp only [isAlnumC, Bool.or_eq_true, beq_iff_eq] at h0
            tauto
          · intro d hd
            have := List.all_eq_true.1 h d hd
            simp only [isAlnumC, Bool.or_eq_true, beq_iff_eq] at this
            tauto
        · have h0f : (isAlnumC c0 || c0 == '_') = false := Bool.eq_false_iff.2 h0
          rw [if_pos (by rw [h0f]; rfl)] at h
          cases h
      · rintro ⟨-, -, h1, h2⟩
        have h0 : (isAlnumC c0 || c0 == '_') = true := by
          simp only [isAlnumC, Bool.or_eq_true, beq_iff_eq]
          tauto
        rw [if_neg (by simp [h0])]
        refine List.all_eq_true.2 (fun d hd => ?_)
        have := h2 d hd
        simp only [isAlnumC, Bool.or_eq_true, beq_iff_eq]
        tauto

/-- C5: the parser maps each concrete example line of the claim to exactly
the stated record; non-alias and empty lines yield the empty
(default-constructed) record. -/
theorem c5_parse_examples :
    parseAliasLine ("alias ll='ls -la'".toList) = ⟨"ll".toList, "ls -la".toList⟩ ∧
    parseAliasLine ("alias gcm=\"git commit -m 'initial commit'\"".toList) =
      ⟨"gcm".toList, "git commit -m 'initial commit'".toList⟩ ∧
    parseAliasLine ("alias ll = 'ls -la'".toList) = ⟨"ll".toList, "ls -la".toList⟩ ∧
    parseAliasLine ("not an alias".toList) = ⟨[], []⟩ ∧
    parseAliasLine [] = ⟨[], []⟩ := by
  decide

/-- C6: `isAliasLine` holds exactly when the five characters after the
leading horizontal whitespace are `alias` (a pure prefix match), so in
particular `aliasfoo=1` is classified as an alias line. -/
theorem c6_isAliasLine_spec :
    (∀ line : List Char, isAliasLine line = true ↔ AliasLineSpec line) ∧
    isAliasLine ("aliasfoo=1".toList) = true := by
  refine ⟨?_, by decide⟩
  intro line
  rw [isAliasLine, AliasLineSpec]
  by_cases h : line.dropWhile hwsB = []
  · rw [findNotHws_none (List.dropWhile_eq_nil_iff.1 h), h]
    constructor
    · intro h0; cases h0
    · intro h0
      rw [List.take_nil] at h0
      exact absurd h0.symm (by decide)
  · rw [findNotHws_of_dropWhile_ne h]
    have hdrop : line.drop ((line.takeWhile hwsB).length) = line.dropWhile hwsB := by
      have h1 := List.drop_left (line.takeWhile hwsB) (line.dropWhile hwsB)
      rwa [List.takeWhile_append_dropWhile] at h1
    show (substr line ((line.takeWhile hwsB).length) 5 == kwAlias) = true ↔ _
    rw [substr, hdrop]
    exact beq_iff_eq

/-- C3 counterexample: for the FISH dialect the formatter wraps in outer
single quotes even when the command contains a single quote, refuting the
claimed quoting rule for that dialect at the valid record
`⟨"a", "x'y"⟩`. -/
theorem c3_counterexample :
    validateAliasName ("a".toList) = true ∧
    validateCommand ("x'y".toList) = true ∧
    (("x'y".toList).contains '\'') = true ∧
    formatAlias Shell.FISH ⟨"a".toList, "x'y".toList⟩ ≠
      specQuotedFormat Shell.FISH ⟨"a".toList, "x'y".toList⟩ := by
  decide

/-- C3 amended: the quoting rule (outer double quotes exactly when the
command contains a single quote) holds for the BASH and ZSH dialects; the
FISH and UNKNOWN dialects always wrap the escaped command in single
quotes, whatever the command contains. -/
theorem c3_quoting_amended (a : Alias)
    (hn : validateAliasName a.name = true)
    (hc : validateCommand a.command = true) :
    formatAlias Shell.BASH a = specQuotedFormat Shell.BASH a ∧
    formatAlias Shell.ZSH a = specQuotedFormat Shell.ZSH a ∧
    formatAlias Shell.FISH a =
      "alias ".toList ++ a.name ++ ' ' :: '\'' :: (escapeCommand a.command ++ ['\'']) ∧
    formatAlias Shell.UNKNOWN a =
      "alias ".toList ++ a.name ++ '=' :: '\'' :: (escapeCommand a.command ++ ['\'']) := by
  by_cases hq : '\'' ∈ a.command
  · simp [formatAlias, specQuotedFormat, hn, hc, hq]
  · simp [formatAlias, specQuotedFormat, hn, hc, hq]

/-- Witness for the C3 amended theorem at the valid record `⟨"a", "b"⟩`. -/
theorem c3_quoting_amended_witness :
    validateAliasName ("a".toList) = true ∧
    validateCommand ("b".toList) = true ∧
    (formatAlias Shell.BASH ⟨"a".toList, "b".toList⟩ =
        specQuotedFormat Shell.BASH ⟨"a".toList, "b".toList⟩ ∧
      formatAlias Shell.ZSH ⟨"a".toList, "b".toList⟩ =
        specQuotedFormat Shell.ZSH ⟨"a".toList, "b".toList⟩ ∧
      formatAlias Shell.FISH ⟨"a".toList, "b".toList⟩ =
        "alias ".toList ++ "a".toList ++ ' ' :: '\'' ::
          (escapeCommand ("b".toList) ++ ['\'']) ∧
      formatAlias Shell.UNKNOWN ⟨"a".toList, "b".toList⟩ =
        "alias ".toList ++ "a".toList ++ '=' :: '\'' ::
          (escapeCommand ("b".toList) ++ ['\''])) :=
  ⟨by decide, by decide,
    c3_quoting_amended ⟨"a".toList, "b".toList⟩ (by decide) (by decide)⟩

theorem findNotHws_kw (x : List Char) : findNotHws (kwAlias ++ x) = some 0 :=
  findNotHws_cons_not (by decide) ('l' :: 'i' :: 'a' :: 's' :: x)

theorem substr_kw (lead x : List Char) :
    substr (lead ++ (kwAlias ++ x)) lead.length 5 = kwAlias := by
  rw [substr, List.drop_left]
  exact List.take_left kwAlias x

/-- C10: a line `alias <name>=` with only whitespace after the equals sign
is not rejected: the parser returns the trimmed name with an empty command,
although `validateCommand` rejects empty commands. -/
theorem c10_parse_empty_command (lead np tail : List Char)
    (hlead : ∀ c ∈ lead, hwsB c = true)
    (htail : ∀ c ∈ tail, hwsB c = true)
    (hnp : '=' ∉ np) :
    parseAliasLine (lead ++ (kwAlias ++ (np ++ '=' :: tail))) =
      ⟨specTrim np, []⟩ ∧ validateCommand [] = false := by
  refine ⟨?_, by decide⟩
  have hstart : findNotHws (lead ++ (kwAlias ++ (np ++ '=' :: tail))) =
      some lead.length := by
    rw [findNotHws_append_ws hlead, findNotHws_kw]
    simp
  have hsub : substr (lead ++ (kwAlias ++ (np ++ '=' :: tail))) lead.length 5 =
      kwAlias := substr_kw lead _
  have hdrop1 : (lead ++ (kwAlias ++ (np ++ '=' :: tail))).drop (lead.length + 5) =
      np ++ '=' :: tail := by
    have h1 := List.drop_left (lead ++ kwAlias) (np ++ '=' :: tail)
    have hlkw : (lead ++ kwAlias).length = lead.length + 5 := by
      rw [List.length_append]; rfl
    rw [hlkw, List.append_assoc] at h1
    exact h1
  have heqfind : findCharFrom (lead ++ (kwAlias ++ (np ++ '=' :: tail))) '='
      (lead.length + 5) = some (np.length + (lead.length + 5)) := by
    rw [findCharFrom, hdrop1,
      findIdx?_append_none (fun c hc => by
        have hne : c ≠ '=' := fun h => hnp (h ▸ hc)
        simp [hne]) _,
      findIdx?_cons_true (by decide) _]
    simp
  have hnplen : np.length + (lead.length + 5) - lead.length - 5 = np.length := by
    omega
  have hnpeq : substr (lead ++ (kwAlias ++ (np ++ '=' :: tail))) (lead.length + 5)
      (np.length + (lead.length + 5) - lead.length - 5) = np := by
    rw [hnplen, substr, hdrop1]
    exact List.take_left np _
  have hnpeq2 : substr (lead ++ (kwAlias ++ (np ++ '=' :: tail))) (lead.length + 5)
      np.length = np := by
    rw [substr, hdrop1]
    exact List.take_left np _
  have hdrop2 : (lead ++ (kwAlias ++ (np ++ '=' :: tail))).drop
      (np.length + (lead.length + 5) + 1) = tail := by
    have h2 := List.drop_left ((lead ++ kwAlias ++ np) ++ ['=']) tail
    have hl2 : ((lead ++ kwAlias ++ np) ++ ['=']).length =
        np.length + (lead.length + 5) + 1 := by
      simp only [List.length_append, List.length_cons, List.length_nil]
      have h5 : kwAlias.length = 5 := rfl
      omega
    have hshape : ((lead ++ kwAlias ++ np) ++ ['=']) ++ tail =
        lead ++ (kwAlias ++ (np ++ '=' :: tail)) := by
      simp [List.append_assoc]
    rw [hl2, hshape] at h2
    exact h2
  have htailnone : findNotHws tail = none := findNotHws_none htail
  by_cases hnpws : np.dropWhile hwsB = []
  · have hnone : findNotHws np = none :=
      findNotHws_none (List.dropWhile_eq_nil_iff.1 hnpws)
    rw [specTrim_of_all_ws (List.dropWhile_eq_nil_iff.1 hnpws)]
    simp [parseAliasLine, hstart, hsub, heqfind, hnpeq, hnpeq2, hdrop2,
      htailnone, hnone]
  · have hsome := findNotHws_of_dropWhile_ne hnpws
    obtain ⟨e, hfl, hsubtrim⟩ := trim_extract hsome
    simp [parseAliasLine, hstart, hsub, heqfind, hnpeq, hnpeq2, hdrop2,
      htailnone, hsome, hfl, hsubtrim]

/-- Witness for C10 at the concrete line `" alias ll =\t"`. -/
theorem c10_parse_empty_command_witness :
    (∀ c ∈ [' '], hwsB c = true) ∧ (∀ c ∈ ['\t'], hwsB c = true) ∧
    '=' ∉ (" ll ".toList) ∧
    (parseAliasLine ([' '] ++ (kwAlias ++ (" ll ".toList ++ '=' :: ['\t']))) =
        ⟨specTrim (" ll ".toList), []⟩ ∧ validateCommand [] = false) :=
  ⟨by decide, by decide, by decide,
    c10_parse_empty_command [' '] (" ll ".toList) ['\t']
      (by decide) (by decide) (by decide)⟩

theorem dropWhile_eq_self_of_all {p : Char → Bool} {l : List Char}
    (h : ∀ c ∈ l, p c = false) : l.dropWhile p = l := by
  cases l with
  | nil => rfl
  | cons c r =>
    rw [List.dropWhile_cons,
      if_neg (by rw [h c (List.mem_cons_self _ _)]; exact Bool.false_ne_true)]

theorem specTrim_nonws {n : List Char} (hall : ∀ c ∈ n, hwsB c = false) :
    specTrim (' ' :: n) = n := by
  have h1 : List.dropWhile hwsB (' ' :: n) = n := by
    rw [List.dropWhile_cons, if_pos (by decide)]
    exact dropWhile_eq_self_of_all hall
  rw [specTrim, h1,
    dropWhile_eq_self_of_all (fun c hc => hall c (List.mem_reverse.1 hc)),
    List.reverse_reverse]

/-- A valid alias name is nonempty and each of its characters is
alphanumeric, an underscore, or a hyphen. -/
theorem valid_name_facts {n : List Char} (h : validateAliasName n = true) :
    n ≠ [] ∧ ∀ c ∈ n, isAlnumC c = true ∨ c = '_' ∨ c = '-' := by
  cases n with
  | nil => exact absurd h (by decide)
  | cons c0 rest =>
    refine ⟨List.cons_ne_nil _ _, ?_⟩
    rw [validateAliasName] at h
    by_cases h1 : ((c0 :: rest).isEmpty || decide ((c0 :: rest).length > 255)) = true
    · rw [if_pos h1] at h
      exact absurd h (by decide)
    · rw [if_neg h1] at h
      by_cases h2 : (isAlnumC c0 || c0 == '_') = true
      · rw [if_neg (by simp [h2])] at h
        intro c hc
        rcases List.mem_cons.1 hc with rfl | hc
        · simp only [Bool.or_eq_true, beq_iff_eq] at h2
          tauto
        · have h3 := List.all_eq_true.1 h c hc
          simp only [Bool.or_eq_true, beq_iff_eq] at h3
          tauto
      · have h2f : (isAlnumC c0 || c0 == '_') = false := Bool.eq_false_iff.2 h2
        rw [if_pos (by rw [h2f]; rfl)] at h
        exact absurd h (by decide)

/-- Characters allowed in a valid alias name are not whitespace and not the
separator or quote characters. -/
theorem name_char_props {c : Char}
    (h : isAlnumC c = true ∨ c = '_' ∨ c = '-') :
    hwsB c = false ∧ c ≠ '=' ∧ c ≠ '\'' ∧ c ≠ '"' := by
  rcases h with h | rfl | rfl
  · refine ⟨?_, ?_, ?_, ?_⟩
    · cases hw : hwsB c with
      | false => rfl
      | true =>
        exfalso
        rw [hwsB] at hw
        simp only [Bool.or_eq_true, beq_iff_eq] at hw
        rcases hw with rfl | rfl <;> exact absurd h (by decide)
    · rintro rfl; exact absurd h (by decide)
    · rintro rfl; exact absurd h (by decide)
    · rintro rfl; exact absurd h (by decide)
  · decide
  · decide

/-- Parsing a line of the shape `alias<np>='<esc>'`, where `<np>` holds no
equals sign and `<esc>` no single quote, recovers the trimmed name and the
unescaped quoted text: the computation ties every `find`/`substr` call of
`parseAliasLine` to the line's decomposition. -/
theorem parse_single_quoted (np esc : List Char)
    (hnp : np.dropWhile hwsB ≠ [])
    (hne : '=' ∉ np)
    (hesc : ∀ c ∈ esc, (c == '\'') = false) :
    parseAliasLine (kwAlias ++ (np ++ '=' :: ('\'' :: (esc ++ ['\''])))) =
      ⟨specTrim np, unescapeString esc⟩ := by
  have hstart := findNotHws_kw (np ++ '=' :: ('\'' :: (esc ++ ['\''])))
  have hsub : substr (kwAlias ++ (np ++ '=' :: ('\'' :: (esc ++ ['\''])))) 0 5 =
      kwAlias := by
    rw [substr, List.drop_zero]
    exact List.take_left kwAlias _
  have hdrop1 : (kwAlias ++ (np ++ '=' :: ('\'' :: (esc ++ ['\''])))).drop 5 =
      np ++ '=' :: ('\'' :: (esc ++ ['\''])) := by
    have h1 := List.drop_left kwAlias (np ++ '=' :: ('\'' :: (esc ++ ['\''])))
    have h5 : kwAlias.length = 5 := rfl
    rwa [h5] at h1
  have heqfind : findCharFrom (kwAlias ++ (np ++ '=' :: ('\'' :: (esc ++ ['\'']))))
      '=' 5 = some (np.length + 5) := by
    rw [findCharFrom, hdrop1,
      findIdx?_append_none (fun c hc => by
        have hx : c ≠ '=' := fun h => hne (h ▸ hc)
        simp [hx]) _,
      findIdx?_cons_true (by decide) _]
    simp
  have hnpsub : substr (kwAlias ++ (np ++ '=' :: ('\'' :: (esc ++ ['\'']))))
      5 np.length = np := by
    rw [substr, hdrop1]
    exact List.take_left np _
  have hsome := findNotHws_of_dropWhile_ne hnp
  obtain ⟨e, hfl, hsubtrim⟩ := trim_extract hsome
  have hdrop2 : (kwAlias ++ (np ++ '=' :: ('\'' :: (esc ++ ['\''])))).drop
      (np.length + 5 + 1) = '\'' :: (esc ++ ['\'']) := by
    have h2 := List.drop_left ((kwAlias ++ np) ++ ['=']) ('\'' :: (esc ++ ['\'']))
    have hl2 : ((kwAlias ++ np) ++ ['=']).length = np.length + 5 + 1 := by
      simp only [List.length_append, List.length_cons, List.length_nil]
      have h5 : kwAlias.length = 5 := rfl
      omega
    have hshape : ((kwAlias ++ np) ++ ['=']) ++ ('\'' :: (esc ++ ['\''])) =
        kwAlias ++ (np ++ '=' :: ('\'' :: (esc ++ ['\'']))) := by
      simp [List.append_assoc]
    rw [hl2, hshape] at h2
    exact h2
  have hcmdstart : findNotHws ('\'' :: (esc ++ ['\''])) = some 0 :=
    findNotHws_cons_not (by decide) _
  have hquote : findCharFrom ('\'' :: (esc ++ ['\''])) '\'' 1 =
      some (esc.length + 1) := by
    rw [findCharFrom, show ('\'' :: (esc ++ ['\''])).drop 1 = esc ++ ['\''] from rfl,
      findIdx?_append_none hesc _, findIdx?_cons_true (by decide) _]
    simp
  have hsc : substr ('\'' :: (esc ++ ['\''])) 1 esc.length = esc := by
    rw [substr, show ('\'' :: (esc ++ ['\''])).drop 1 = esc ++ ['\''] from rfl]
    exact List.take_left esc _
  simp [parseAliasLine, hstart, hsub, heqfind, hnpsub, hsome, hfl, hsubtrim,
    hdrop2, hcmdstart, hquote, hsc, List.getD_cons_zero]

/-- C1 amended: the round-trip holds for the POSIX_EQUALS dialects (BASH and
ZSH): for a valid record whose command contains no single quote (the quote
character the formatter uses), parsing the formatted line returns the
record.  For the SPACE_DELIMITED (FISH) dialect the formatted line carries
no equals sign, so the parser intentionally yields no record (see the
counterexample). -/
theorem c1_roundtrip_posix (sh : Shell) (a : Alias)
    (hsh : sh = Shell.BASH ∨ sh = Shell.ZSH)
    (hn : validateAliasName a.name = true)
    (hc : validateCommand a.command = true)
    (hq : a.command.contains '\'' = false) :
    parseAliasLine (formatAlias sh a) = a := by
  obtain ⟨hnn, hchars⟩ := valid_name_facts hn
  have hq' : '\'' ∉ a.command := by
    intro hm
    have h1 : a.command.contains '\'' = true := List.elem_iff.2 hm
    rw [hq] at h1
    exact Bool.false_ne_true h1
  have hesc : ∀ c ∈ escapeCommand a.command, (c == '\'') = false := by
    intro c hcm
    rcases escapeCommand_mem _ hcm with rfl | hcm2
    · decide
    · have hx : c ≠ '\'' := fun h => hq' (h ▸ hcm2)
      simp [hx]
  have hfmt : formatAlias sh a =
      kwAlias ++ ((' ' :: a.name) ++ '=' ::
        ('\'' :: (escapeCommand a.command ++ ['\'']))) := by
    have hcond : (!validateAliasName a.name || !validateCommand a.command) = false := by
      rw [hn, hc]; rfl
    rcases hsh with rfl | rfl <;>
    · rw [formatAlias, if_neg (by rw [hcond]; exact Bool.false_ne_true)]
      show (if a.command.contains '\'' = true then _ else _) = _
      rw [if_neg (by rw [hq]; exact Bool.false_ne_true)]
      rfl
  have hallname : ∀ c ∈ a.name, hwsB c = false :=
    fun c hc2 => (name_char_props (hchars c hc2)).1
  have hnws : (' ' :: a.name).dropWhile hwsB ≠ [] := by
    rw [List.dropWhile_cons, if_pos (by decide), dropWhile_eq_self_of_all hallname]
    exact hnn
  have hnp_noeq : '=' ∉ (' ' :: a.name) := by
    intro hm
    rcases List.mem_cons.1 hm with h | h
    · exact absurd h (by decide)
    · exact absurd rfl (name_char_props (hchars _ h)).2.1
  rw [hfmt, parse_single_quoted (' ' :: a.name) (escapeCommand a.command)
      hnws hnp_noeq hesc, specTrim_nonws hallname,
    show unescapeString (escapeCommand a.command) = a.command from
      unescape_of_escape _]

/-- Witness for the C1 amended theorem at BASH and `⟨"ll", "ls -la"⟩`. -/
theorem c1_roundtrip_posix_witness :
    (Shell.BASH = Shell.BASH ∨ Shell.BASH = Shell.ZSH) ∧
    validateAliasName ("ll".toList) = true ∧
    validateCommand ("ls -la".toList) = true ∧
    (("ls -la".toList).contains '\'') = false ∧
    parseAliasLine (formatAlias Shell.BASH ⟨"ll".toList, "ls -la".toList⟩) =
      ⟨"ll".toList, "ls -la".toList⟩ :=
  ⟨Or.inl rfl, by decide, by decide, by decide,
    c1_roundtrip_posix Shell.BASH ⟨"ll".toList, "ls -la".toList⟩ (Or.inl rfl)
      (by decide) (by decide) (by decide)⟩

/-- C1 counterexample: for the SPACE_DELIMITED (FISH) dialect the formatted
line contains no `=`, so the parser yields the empty record and the
round-trip fails at the valid record `⟨"ll", "ls"⟩` whose command is free
of the dialect's quote character. -/
theorem c1_counterexample :
    validateAliasName ("ll".toList) = true ∧
    validateCommand ("ls".toList) = true ∧
    (("ls".toList).contains '\'') = false ∧
    parseAliasLine (formatAlias Shell.FISH ⟨"ll".toList, "ls".toList⟩) ≠
      ⟨"ll".toList, "ls".toList⟩ := by
  decide

/-
Helper lemmas for the backup rotation model.
-/

theorem sortByTimeDesc_of_strict {l : List (List Char × Nat)}
    (h : List.Pairwise (fun a b => b.2 < a.2) l) : sortByTimeDesc l = l :=
  List.Sorted.insertionSort_eq (h.imp (fun hab => Nat.le_of_lt hab))

theorem length_filter_not (p : List Char → Bool) (l : List (List Char)) :
    (l.filter p).length + (l.filter (fun x => !p x)).length = l.length := by
  induction l with
  | nil => rfl
  | cons x xs ih =>
    by_cases h : p x
    · simp [List.filter_cons, h]
      omega
    · have hf : p x = false := Bool.eq_false_iff.2 h
      simp [List.filter_cons, hf]
      omega

theorem rotateLoop_early (env : BackupFS) {maxB i : Nat} {l : List (List Char)}
    (h10 : 10 ≤ maxB) (h : i + l.length ≤ 10) :
    rotateLoop env maxB i l = (0, []) := by
  induction l generalizing i with
  | nil => rfl
  | cons p rest ih =>
    have hlen : i + rest.length + 1 ≤ 10 := by
      simp only [List.length_cons] at h; omega
    simp only [rotateLoop]
    rw [if_neg (by omega), if_neg (fun hcon => absurd hcon.1 (by omega)),
      ih (by omega)]

theorem rotateLoop_mid (env : BackupFS) {maxB i : Nat} {l : List (List Char)}
    (h10 : 10 ≤ i) (h : i + l.length ≤ maxB) :
    rotateLoop env maxB i l =
      (0, l.filterMap (fun p => if endsWithXz p then none
        else some (if env.xzOk p then FsEvent.compressed p
          else FsEvent.compressFailed p))) := by
  induction l generalizing i with
  | nil => rfl
  | cons p rest ih =>
    have hlen : i + rest.length + 1 ≤ maxB := by
      simp only [List.length_cons] at h; omega
    simp only [rotateLoop]
    rw [if_neg (by omega), ih (by omega) (by omega)]
    by_cases hxz : endsWithXz p
    · rw [if_neg (fun hcon => absurd hcon.2 (by simp [hxz]))]
      simp [List.filterMap_cons, hxz]
    · have hxzf : endsWithXz p = false := Bool.eq_false_iff.2 hxz
      rw [if_pos ⟨h10, hxzf⟩]
      by_cases hok : env.xzOk p
      · simp [hok, List.filterMap_cons, hxzf]
      · simp [hok, List.filterMap_cons, hxzf]

theorem rotateLoop_del (env : BackupFS) {maxB i : Nat} {l : List (List Char)}
    (h : maxB ≤ i) :
    rotateLoop env maxB i l =
      ((l.filter (fun p => env.removeOk p)).length,
        l.map (fun p => if env.removeOk p then FsEvent.removed p
          else FsEvent.removeFailed p)) := by
  induction l generalizing i with
  | nil => rfl
  | cons p rest ih =>
    simp only [rotateLoop]
    rw [if_pos h, ih (i := i + 1) (by omega)]
    by_cases hok : env.removeOk p
    · simp [hok, List.filter_cons]
    · simp [hok, List.filter_cons]

theorem rotateLoop_append (env : BackupFS) (maxB : Nat)
    (l1 l2 : List (List Char)) (i : Nat) :
    rotateLoop env maxB i (l1 ++ l2) =
      ((rotateLoop env maxB i l1).1 + (rotateLoop env maxB (i + l1.length) l2).1,
        (rotateLoop env maxB i l1).2 ++ (rotateLoop env maxB (i + l1.length) l2).2) := by
  induction l1 generalizing i with
  | nil => simp [rotateLoop]
  | cons p rest ih =>
    have hidx : i + 1 + rest.length = i + (p :: rest).length := by
      simp only [List.length_cons]; omega
    simp only [List.cons_append, rotateLoop, List.append_eq]
    rw [ih (i + 1), hidx]
    by_cases h1 : maxB ≤ i
    · rw [if_pos h1, if_pos h1]
      by_cases h2 : env.removeOk p <;>
        simp [h2, List.cons_append, Prod.ext_iff] <;> omega
    · rw [if_neg h1, if_neg h1]
      by_cases h2 : 10 ≤ i ∧ endsWithXz p = false
      · rw [if_pos h2, if_pos h2]
        by_cases h3 : env.xzOk p <;>
          simp [h3, List.cons_append]
      · rw [if_neg h2, if_neg h2]

theorem mem_compressEvents {env : BackupFS} {B : List (List Char)} {ev : FsEvent}
    (h : ev ∈ B.filterMap (fun p => if endsWithXz p then none
      else some (if env.xzOk p then FsEvent.compressed p
        else FsEvent.compressFailed p))) :
    ∃ q ∈ B, endsWithXz q = false ∧
      (ev = FsEvent.compressed q ∨ ev = FsEvent.compressFailed q) := by
  obtain ⟨q, hq, hfq⟩ := List.mem_filterMap.1 h
  by_cases hxz : endsWithXz q
  · rw [if_pos hxz] at hfq
    cases hfq
  · rw [if_neg hxz] at hfq
    refine ⟨q, hq, Bool.eq_false_iff.2 hxz, ?_⟩
    by_cases hok : env.xzOk q
    · rw [if_pos hok] at hfq
      exact Or.inl (Option.some.inj hfq).symm
    · rw [if_neg hok] at hfq
      exact Or.inr (Option.some.inj hfq).symm

theorem mem_removeEvents {env : BackupFS} {C : List (List Char)} {ev : FsEvent}
    (h : ev ∈ C.map (fun p => if env.removeOk p then FsEvent.removed p
      else FsEvent.removeFailed p)) :
    ∃ q ∈ C, ev = FsEvent.removed q ∨ ev = FsEvent.removeFailed q := by
  obtain ⟨q, hq, hfq⟩ := List.mem_map.1 h
  by_cases hok : env.removeOk q
  · rw [if_pos hok] at hfq
    exact ⟨q, hq, Or.inl hfq.symm⟩
  · rw [if_neg hok] at hfq
    exact ⟨q, hq, Or.inr hfq.symm⟩

/-- C2: with exactly 25 listed backups, all with readable and strictly
decreasing modification times (so the scan order is already newest first)
and pairwise distinct paths, rotation with cap 20 leaves positions 0-9
untouched, compresses positions 10-19 (unless already compressed; failures
only recorded), deletes positions 20-24 (failures skipped), and returns the
number of successful deletions, which is 5 minus the failed ones. -/
theorem c2_rotation_invariant (env : BackupFS) (orig : List Char)
    (ps : List (List Char))
    (hscan : listBackups env orig = ps)
    (hlen : ps.length = 25)
    (hwt : (ps.filterMap (fun p => (env.mtime p).map (fun t => (p, t)))).map
      Prod.fst = ps)
    (hsorted : List.Pairwise (fun a b => b.2 < a.2)
      (ps.filterMap (fun p => (env.mtime p).map (fun t => (p, t)))))
    (hnodup : ps.Nodup) :
    RotationClaim env ps (cleanupAndCompressOldBackups env orig 20) := by
  have hrot : cleanupAndCompressOldBackups env orig 20 = rotateLoop env 20 0 ps := by
    simp only [cleanupAndCompressOldBackups]
    rw [hscan, sortByTimeDesc_of_strict hsorted, hwt,
      show (if (20 : Int) ≤ 0 then (20 : Nat) else (20 : Int).toNat) = 20 by decide]
  have h1025 : ps = ps.take 10 ++ ((ps.drop 10).take 10 ++ ps.drop 20) := by
    conv_lhs => rw [← List.take_append_drop 10 ps]
    congr 1
    conv_lhs => rw [← List.take_append_drop 10 (ps.drop 10)]
    rw [List.drop_drop]
  have hA : (ps.take 10).length = 10 := by
    rw [List.length_take, hlen]
    decide
  have hB : ((ps.drop 10).take 10).length = 10 := by
    rw [List.length_take, List.length_drop, hlen]
    decide
  have hC : (ps.drop 20).length = 5 := by
    rw [List.length_drop, hlen]
  have hout : rotateLoop env 20 0 ps =
      (((ps.drop 20).filter (fun q => env.removeOk q)).length,
        ((ps.drop 10).take 10).filterMap (fun p => if endsWithXz p then none
          else some (if env.xzOk p then FsEvent.compressed p
            else FsEvent.compressFailed p)) ++
        (ps.drop 20).map (fun p => if env.removeOk p then FsEvent.removed p
          else FsEvent.removeFailed p)) := by
    conv_lhs => rw [h1025]
    rw [rotateLoop_append]
    rw [rotateLoop_early env (by omega) (by omega)]
    rw [show (0 : Nat) + (ps.take 10).length = 10 by omega]
    rw [rotateLoop_append]
    rw [rotateLoop_mid env (by omega) (by omega)]
    rw [show (10 : Nat) + ((ps.drop 10).take 10).length = 20 by omega]
    rw [rotateLoop_del env (by omega)]
    simp
  have hnd : (ps.take 10 ++ ((ps.drop 10).take 10 ++ ps.drop 20)).Nodup :=
    h1025 ▸ hnodup
  obtain ⟨hndA, hndBC, hdisjA⟩ := List.nodup_append.1 hnd
  obtain ⟨hndB, hndC, hdisjBC⟩ := List.nodup_append.1 hndBC
  rw [RotationClaim, hrot, hout]
  refine ⟨?_, ?_, ?_, rfl, ?_⟩
  · intro p hp ev hev
    rcases List.mem_append.1 hev with h | h
    · obtain ⟨q, hqB, -, hform⟩ := mem_compressEvents h
      have hpath : FsEvent.path ev = q := by
        rcases hform with rfl | rfl <;> rfl
      rw [hpath]
      intro h0
      exact hdisjA hp (List.mem_append.2 (Or.inl (h0 ▸ hqB)))
    · obtain ⟨q, hqC, hform⟩ := mem_removeEvents h
      have hpath : FsEvent.path ev = q := by
        rcases hform with rfl | rfl <;> rfl
      rw [hpath]
      intro h0
      exact hdisjA hp (List.mem_append.2 (Or.inr (h0 ▸ hqC)))
  · intro p hp
    refine ⟨?_, ?_, ?_, ?_⟩
    · intro hxz ev hev
      rcases List.mem_append.1 hev with h | h
      · obtain ⟨q, hqB, hqxz, hform⟩ := mem_compressEvents h
        have hpath : FsEvent.path ev = q := by
          rcases hform with rfl | rfl <;> rfl
        rw [hpath]
        intro h0
        rw [h0, hxz] at hqxz
        exact absurd hqxz (by decide)
      · obtain ⟨q, hqC, hform⟩ := mem_removeEvents h
        have hpath : FsEvent.path ev = q := by
          rcases hform with rfl | rfl <;> rfl
        rw [hpath]
        intro h0
        exact hdisjBC hp (h0 ▸ hqC)
    · intro hxzf hok
      refine List.mem_append.2 (Or.inl (List.mem_filterMap.2 ⟨p, hp, ?_⟩))
      rw [if_neg (by rw [hxzf]; exact Bool.false_ne_true), if_pos hok]
    · intro hxzf hokf
      refine List.mem_append.2 (Or.inl (List.mem_filterMap.2 ⟨p, hp, ?_⟩))
      rw [if_neg (by rw [hxzf]; exact Bool.false_ne_true),
        if_neg (by rw [hokf]; exact Bool.false_ne_true)]
    · intro hcon
      rcases List.mem_append.1 hcon with h | h
      · obtain ⟨q, -, -, hform⟩ := mem_compressEvents h
        rcases hform with h2 | h2 <;> exact FsEvent.noConfusion h2
      · obtain ⟨q, hq, hfq⟩ := List.mem_map.1 h
        by_cases hokq : env.removeOk q
        · rw [if_pos hokq] at hfq
          have h2 : q = p := by injection hfq
          exact hdisjBC hp (h2 ▸ hq)
        · rw [if_neg hokq] at hfq
          exact FsEvent.noConfusion hfq
  · intro p hp
    constructor
    · intro hok
      refine List.mem_append.2 (Or.inr (List.mem_map.2 ⟨p, hp, ?_⟩))
      rw [if_pos hok]
    · intro hokf
      constructor
      · refine List.mem_append.2 (Or.inr (List.mem_map.2 ⟨p, hp, ?_⟩))
        rw [if_neg (by rw [hokf]; exact Bool.false_ne_true)]
      · intro hcon
        rcases List.mem_append.1 hcon with h | h
        · obtain ⟨q, -, -, hform⟩ := mem_compressEvents h
          rcases hform with h2 | h2 <;> exact FsEvent.noConfusion h2
        · obtain ⟨q, hq, hfq⟩ := List.mem_map.1 h
          by_cases hokq : env.removeOk q
          · rw [if_pos hokq] at hfq
            have h2 : q = p := by injection hfq
            rw [h2] at hokq
            rw [hokq] at hokf
            exact absurd hokf (by decide)
          · rw [if_neg hokq] at hfq
            exact FsEvent.noConfusion hfq
  · have hpart : ((ps.drop 20).filter (fun q => env.removeOk q)).length +
        ((ps.drop 20).filter (fun q => !env.removeOk q)).length =
        (ps.drop 20).length := length_filter_not _ _
    show ((ps.drop 20).filter (fun q => env.removeOk q)).length =
      5 - ((ps.drop 20).filter (fun q => !env.removeOk q)).length
    omega

/-- Witness for C2 at the concrete 25-backup oracle `envW`. -/
theorem c2_rotation_invariant_witness :
    (listBackups envW ("/h/f".toList) = psW ∧
      psW.length = 25 ∧
      (psW.filterMap (fun p => (envW.mtime p).map (fun t => (p, t)))).map
        Prod.fst = psW ∧
      List.Pairwise (fun a b => b.2 < a.2)
        (psW.filterMap (fun p => (envW.mtime p).map (fun t => (p, t)))) ∧
      psW.Nodup) ∧
    RotationClaim envW psW (cleanupAndCompressOldBackups envW ("/h/f".toList) 20) :=
  ⟨⟨by decide, by decide, by decide, by decide, by decide⟩,
    c2_rotation_invariant envW ("/h/f".toList) psW (by decide) (by decide)
      (by decide) (by decide) (by decide)⟩

/-
Timestamp shape lemmas.
-/

theorem natDigitsAux_fuel : ∀ (f1 f2 n : Nat), n < f1 → n < f2 →
    natDigitsAux f1 n = natDigitsAux f2 n := by
  intro f1
  induction f1 with
  | zero => intro f2 n h1 h2; exact absurd h1 (Nat.not_lt_zero n)
  | succ g1 ih =>
    intro f2 n h1 h2
    cases f2 with
    | zero => exact absurd h2 (Nat.not_lt_zero n)
    | succ g2 =>
      rw [natDigitsAux, natDigitsAux]
      by_cases h : n < 10
      · rw [if_pos h, if_pos h]
      · rw [if_neg h, if_neg h]
        congr 1
        exact ih g2 (n / 10) (by omega) (by omega)

theorem natDigits_unfold (n : Nat) :
    natDigits n = if n < 10 then [digitChar n]
      else natDigits (n / 10) ++ [digitChar (n % 10)] := by
  rw [natDigits, natDigitsAux]
  by_cases h : n < 10
  · rw [if_pos h, if_pos h]
  · rw [if_neg h, if_neg h, natDigits,
      natDigitsAux_fuel n (n / 10 + 1) (n / 10) (by omega) (by omega)]

theorem digitChar_isDigit {n : Nat} (h : n < 10) : (digitChar n).isDigit = true := by
  interval_cases n <;> decide

theorem natDigits_digits : ∀ (n : Nat), ∀ c ∈ natDigits n, c.isDigit = true := by
  intro n
  induction n using Nat.strong_induction_on with
  | _ n ih =>
    intro c hc
    rw [natDigits_unfold] at hc
    by_cases h : n < 10
    · rw [if_pos h] at hc
      simp only [List.mem_cons, List.not_mem_nil, or_false] at hc
      subst hc
      exact digitChar_isDigit h
    · rw [if_neg h] at hc
      rcases List.mem_append.1 hc with h1 | h1
      · exact ih (n / 10) (by omega) c h1
      · simp only [List.mem_cons, List.not_mem_nil, or_false] at h1
        subst h1
        exact digitChar_isDigit (by omega)

theorem natDigits_len1 {n : Nat} (h : n < 10) : (natDigits n).length = 1 := by
  rw [natDigits_unfold, if_pos h]
  rfl

theorem natDigits_len2 {n : Nat} (h1 : 10 ≤ n) (h2 : n < 100) :
    (natDigits n).length = 2 := by
  rw [natDigits_unfold, if_neg (by omega), List.length_append,
    natDigits_len1 (by omega)]
  rfl

theorem natDigits_len3 {n : Nat} (h1 : 100 ≤ n) (h2 : n < 1000) :
    (natDigits n).length = 3 := by
  rw [natDigits_unfold, if_neg (by omega), List.length_append,
    natDigits_len2 (by omega) (by omega)]
  rfl

theorem natDigits_len4 {n : Nat} (h1 : 1000 ≤ n) (h2 : n < 10000) :
    (natDigits n).length = 4 := by
  rw [natDigits_unfold, if_neg (by omega), List.length_append,
    natDigits_len3 (by omega) (by omega)]
  rfl

theorem pad2_len {n : Nat} (h : n < 100) : (pad2 n).length = 2 := by
  rw [pad2]
  by_cases h1 : n < 10
  · rw [if_pos h1, List.length_cons, natDigits_len1 h1]
  · rw [if_neg h1]
    exact natDigits_len2 (by omega) h

theorem pad2_digits (n : Nat) : ∀ c ∈ pad2 n, c.isDigit = true := by
  rw [pad2]
  by_cases h1 : n < 10
  · rw [if_pos h1]
    intro c hc
    rcases List.mem_cons.1 hc with rfl | hc
    · decide
    · exact natDigits_digits n c hc
  · rw [if_neg h1]
    exact natDigits_digits n

theorem generateTimestamp_shape {t : Timestamp} (hy1 : 1000 ≤ t.year)
    (hy2 : t.year < 10000) (hm : t.month < 100) (hd : t.day < 100)
    (hh : t.hour < 100) (hmi : t.minute < 100) (hs : t.second < 100) :
    TimestampShape (generateTimestamp t) := by
  refine ⟨natDigits t.year ++ (pad2 t.month ++ pad2 t.day),
    pad2 t.hour ++ (pad2 t.minute ++ pad2 t.second), ?_, ?_, ?_, ?_, ?_⟩
  · rw [generateTimestamp]
    simp [List.append_assoc]
  · rw [List.length_append, List.length_append, natDigits_len4 hy1 hy2,
      pad2_len hm, pad2_len hd]
  · rw [List.length_append, List.length_append, pad2_len hh, pad2_len hmi,
      pad2_len hs]
  · intro c hc
    rcases List.mem_append.1 hc with h1 | h1
    · exact natDigits_digits _ c h1
    · rcases List.mem_append.1 h1 with h2 | h2
      · exact pad2_digits _ c h2
      · exact pad2_digits _ c h2
  · intro c hc
    rcases List.mem_append.1 hc with h1 | h1
    · exact pad2_digits _ c h1
    · rcases List.mem_append.1 h1 with h2 | h2
      · exact pad2_digits _ c h2
      · exact pad2_digits _ c h2

/-- C7: `createBackup` returns empty with the missing-file reason when the
tracked file does not exist, empty with the copy-failure reason when the
copy fails, and otherwise returns `<resolved dir>/<basename>.bak<timestamp>`
after copying and running rotation with a cap of 20; the timestamp has the
`YYYYMMDD_HHMMSS` shape for in-range clock fields. -/
theorem c7_createBackup_spec (env : BackupFS) (orig le0 : List Char) :
    CreateBackupClaim env orig le0 := by
  rw [CreateBackupClaim]
  refine ⟨?_, ?_, ?_, ?_⟩
  · intro hmiss
    simp only [createBackup]
    rw [if_pos (by rw [hmiss]; decide)]
    exact ⟨rfl, rfl, rfl⟩
  · intro hex hcopy
    rw [backupTargetPath] at hcopy
    simp only [createBackup]
    rw [if_neg (by rw [hex]; decide), if_neg (by rw [hcopy]; decide)]
    exact ⟨rfl, rfl, rfl⟩
  · intro hex hcopy
    rw [backupTargetPath] at hcopy
    simp only [createBackup]
    rw [if_neg (by rw [hex]; decide), if_pos hcopy]
    exact ⟨rfl, rfl, rfl, rfl, rfl⟩
  · intro hy1 hy2 hm hd hh hmi hs
    exact generateTimestamp_shape hy1 hy2 hm hd hh hmi hs

/-- Witness for C7 at the all-succeeding oracle `envW`. -/
theorem c7_createBackup_spec_witness :
    envW.fileExists ("/h/f".toList) = true ∧
    envW.copyOk ("/h/f".toList) (backupTargetPath envW ("/h/f".toList)) = true ∧
    CreateBackupClaim envW ("/h/f".toList) [] :=
  ⟨by decide, by decide, c7_createBackup_spec envW ("/h/f".toList) []⟩

/-
Helpers for the last-backup restoration claim.
-/

theorem cons_ne_noBackup {c : Char} {x : List Char} (h : c ≠ 'N') :
    c :: x ≠ noBackupMsg := by
  intro hx
  have h1 := congrArg List.head? hx
  rw [List.head?_cons, show noBackupMsg.head? = some 'N' from rfl] at h1
  exact h (Option.some.inj h1)

theorem restoreFromBackup_ne_noBackup (env : BackupFS) (orig le0 bp : List Char) :
    restoreFromBackup env orig le0 bp ≠ (false, noBackupMsg) := by
  simp only [restoreFromBackup]
  by_cases h1 : endsWithXz bp
  · rw [if_pos h1]
    by_cases h2 : env.xzdOk bp
    · rw [if_neg (by rw [h2]; decide)]
      by_cases h3 : env.fileExists (bp.take (bp.length - 3))
      · rw [if_neg (by rw [h3]; decide)]
        by_cases h4 : env.copyOk (bp.take (bp.length - 3)) orig
        · rw [if_pos h4]
          intro hx
          exact Bool.noConfusion (congrArg Prod.fst hx)
        · rw [if_neg h4]
          intro hx
          exact cons_ne_noBackup (by decide) (congrArg Prod.snd hx)
      · have h3f : env.fileExists (bp.take (bp.length - 3)) = false :=
          Bool.eq_false_iff.2 h3
        rw [if_pos (by rw [h3f]; decide)]
        intro hx
        exact cons_ne_noBackup (by decide) (congrArg Prod.snd hx)
    · have h2f : env.xzdOk bp = false := Bool.eq_false_iff.2 h2
      rw [if_pos (by rw [h2f]; decide)]
      intro hx
      exact cons_ne_noBackup (by decide) (congrArg Prod.snd hx)
  · rw [if_neg h1]
    by_cases h3 : env.fileExists bp
    · rw [if_neg (by rw [h3]; decide)]
      by_cases h4 : env.copyOk bp orig
      · rw [if_pos h4]
        intro hx
        exact Bool.noConfusion (congrArg Prod.fst hx)
      · rw [if_neg h4]
        intro hx
        exact cons_ne_noBackup (by decide) (congrArg Prod.snd hx)
    · have h3f : env.fileExists bp = false := Bool.eq_false_iff.2 h3
      rw [if_pos (by rw [h3f]; decide)]
      intro hx
      exact cons_ne_noBackup (by decide) (congrArg Prod.snd hx)

theorem containsSub_le {pat : List Char} (s : List Char)
    (h : containsSub pat s = true) : pat.length ≤ s.length := by
  induction s with
  | nil =>
    cases pat with
    | nil => simp
    | cons c r =>
      rw [containsSub] at h
      exact Bool.noConfusion h
  | cons c rest ih =>
    rw [containsSub, Bool.or_eq_true] at h
    rcases h with h1 | h1
    · have h2 := congrArg List.length (eq_of_beq h1)
      rw [List.length_take] at h2
      have h3 := Nat.min_le_right pat.length (c :: rest).length
      omega
    · have h2 := ih h1
      simp only [List.length_cons]
      omega

theorem listBackups_ne_nil {env : BackupFS} {orig p : List Char}
    (h : p ∈ listBackups env orig) : p ≠ [] := by
  simp only [listBackups] at h
  obtain ⟨f, hf, rfl⟩ := List.mem_map.1 h
  have hfil := (List.mem_filter.1 hf).2
  have hflen := containsSub_le f hfil
  have hpat : 4 ≤ (getBackupBaseName orig).length := by
    rw [getBackupBaseName, List.length_append]
    have h4 : (".bak".toList).length = 4 := rfl
    omega
  have hfne : f ≠ [] := by
    intro h0
    rw [h0, List.length_nil] at hflen
    omega
  rw [pathJoin]
  by_cases hd : ((getBackupDirectoryM env orig).1).isEmpty
  · rw [if_pos hd]
    exact hfne
  · rw [if_neg hd]
    by_cases hsl : ((getBackupDirectoryM env orig).1).getLast? == some '/'
    · rw [if_pos hsl]
      intro h0
      exact hfne (List.append_eq_nil.1 h0).2
    · rw [if_neg hsl]
      intro h0
      exact List.cons_ne_nil _ _ (List.append_eq_nil.1 h0).2

theorem wt_fst_mem {env : BackupFS} {orig : List Char} {x : List Char × Nat}
    (h : x ∈ (listBackups env orig).filterMap
      (fun p => (env.mtime p).map (fun t => (p, t)))) :
    x.1 ∈ listBackups env orig := by
  obtain ⟨p, hp, hfp⟩ := List.mem_filterMap.1 h
  cases hm : env.mtime p with
  | none => rw [hm] at hfp; cases hfp
  | some t =>
    rw [hm] at hfp
    have hfp2 : (p, t) = x := Option.some.inj hfp
    rw [← hfp2]
    exact hp

theorem sortByTimeDesc_head_max {l : List (List Char × Nat)}
    {x : List Char × Nat} {rest : List (List Char × Nat)}
    (h : sortByTimeDesc l = x :: rest) :
    x ∈ l ∧ ∀ y ∈ l, y.2 ≤ x.2 := by
  have hperm := List.perm_insertionSort newestFirst l
  have hsorted := List.sorted_insertionSort newestFirst l
  rw [sortByTimeDesc] at h
  rw [h] at hperm hsorted
  constructor
  · exact hperm.mem_iff.1 (List.mem_cons_self x rest)
  · intro y hy
    rcases List.mem_cons.1 (hperm.mem_iff.2 hy) with rfl | hy2
    · exact Nat.le_refl _
    · exact (List.sorted_cons.1 hsorted).1 y hy2

theorem sort_cons_of_ne {l : List (List Char × Nat)} (h : l ≠ []) :
    ∃ x rest, sortByTimeDesc l = x :: rest := by
  cases hs : sortByTimeDesc l with
  | nil =>
    exfalso
    apply h
    have hperm := List.perm_insertionSort newestFirst l
    rw [sortByTimeDesc] at hs
    rw [hs] at hperm
    exact hperm.symm.eq_nil
  | cons x rest => exact ⟨x, rest, rfl⟩

theorem getLastBackupPath_of_nil {env : BackupFS} {orig : List Char}
    (h : (listBackups env orig).filterMap
      (fun p => (env.mtime p).map (fun t => (p, t))) = []) :
    getLastBackupPath env orig = [] := by
  simp only [getLastBackupPath, h]
  by_cases hb : (listBackups env orig).isEmpty
  · rw [if_pos hb]
  · rw [if_neg hb,
      if_pos (show (([] : List (List Char × Nat))).isEmpty = true from rfl)]

theorem getLastBackupPath_of_cons {env : BackupFS} {orig : List Char}
    {x : List Char × Nat} {rest : List (List Char × Nat)}
    (hsort : sortByTimeDesc ((listBackups env orig).filterMap
      (fun p => (env.mtime p).map (fun t => (p, t)))) = x :: rest) :
    getLastBackupPath env orig = x.1 := by
  have hwtne : (listBackups env orig).filterMap
      (fun p => (env.mtime p).map (fun t => (p, t))) ≠ [] := by
    intro h0
    rw [h0, show sortByTimeDesc [] = [] from rfl] at hsort
    cases hsort
  have hbne : (listBackups env orig).isEmpty = false := by
    cases hb : listBackups env orig with
    | nil =>
      exfalso
      apply hwtne
      rw [hb]
      rfl
    | cons a l => rfl
  have hwtb : ((listBackups env orig).filterMap
      (fun p => (env.mtime p).map (fun t => (p, t)))).isEmpty = false := by
    cases hw : (listBackups env orig).filterMap
        (fun p => (env.mtime p).map (fun t => (p, t))) with
    | nil => exact absurd hw hwtne
    | cons a l => rfl
  simp only [getLastBackupPath]
  rw [if_neg (by rw [hbne]; decide), if_neg (by rw [hwtb]; decide), hsort]

theorem restoreFromLastBackup_of_cons {env : BackupFS} {orig : List Char}
    {x : List Char × Nat} {rest : List (List Char × Nat)} (le0 : List Char)
    (hsort : sortByTimeDesc ((listBackups env orig).filterMap
      (fun p => (env.mtime p).map (fun t => (p, t)))) = x :: rest)
    (hx1ne : x.1 ≠ []) :
    restoreFromLastBackup env orig le0 = restoreFromBackup env orig le0 x.1 := by
  have hie : (x.1).isEmpty = false := by
    cases hc : x.1 with
    | nil => exact absurd hc hx1ne
    | cons a l => rfl
  simp only [restoreFromLastBackup]
  rw [getLastBackupPath_of_cons hsort, if_neg (by rw [hie]; decide)]

/-- C8 counterexample: at `envC8x` one backup entry is listed, yet its
modification-time lookup throws, so `restoreFromLastBackup` fails with the
`"No backup found"` error although a backup entry exists — refuting the
claimed equivalence between that error and the absence of entries. -/
theorem c8_counterexample :
    restoreFromLastBackup envC8x ("/h/f".toList) [] = (false, noBackupMsg) ∧
    listBackups envC8x ("/h/f".toList) ≠ [] := by
  decide

/-- C8 amended: `restoreFromLastBackup` returns `false` with the
`"No backup found"` error exactly when no listed backup entry has a
readable modification time; otherwise it delegates to `restoreFromBackup`
on an entry with maximal modification time. -/
theorem c8_restore_delegation (env : BackupFS) (orig le0 : List Char) :
    RestoreDelegationClaim env orig le0 := by
  rw [RestoreDelegationClaim]
  constructor
  · constructor
    · intro hres
      by_contra hwt
      obtain ⟨x, rest, hsort⟩ := sort_cons_of_ne hwt
      obtain ⟨hxmem, -⟩ := sortByTimeDesc_head_max hsort
      have hx1ne : x.1 ≠ [] := listBackups_ne_nil (wt_fst_mem hxmem)
      rw [restoreFromLastBackup_of_cons le0 hsort hx1ne] at hres
      exact restoreFromBackup_ne_noBackup env orig le0 x.1 hres
    · intro hwt
      simp only [restoreFromLastBackup]
      rw [getLastBackupPath_of_nil hwt]
      rfl
  · intro hwt
    obtain ⟨x, rest, hsort⟩ := sort_cons_of_ne hwt
    obtain ⟨hxmem, hxmax⟩ := sortByTimeDesc_head_max hsort
    have hx1ne : x.1 ≠ [] := listBackups_ne_nil (wt_fst_mem hxmem)
    exact ⟨x, hxmem, hxmax, restoreFromLastBackup_of_cons le0 hsort hx1ne⟩

/-- Witness for C8 at the oracle `envW`, whose scan yields readable
entries. -/
theorem c8_restore_delegation_witness :
    (listBackups envW ("/h/f".toList)).filterMap
      (fun p => (envW.mtime p).map (fun t => (p, t))) ≠ [] ∧
    RestoreDelegationClaim envW ("/h/f".toList) [] :=
  ⟨by decide, c8_restore_delegation envW ("/h/f".toList) []⟩

end AliaCan
